import Mathlib

/-!
Verification of the coordinate-mapping engine of a language server:
the "safe" offset/position layer (`safetoken`) and the protocol
position/offset mapper.  Definitions are shallow embeddings of the
source; machine integers become `Int`/`Nat`.
-/

namespace SafeToken

/-- A registered file: its base offset, size in bytes, and name
(the fields of `token.File` read by the safetoken functions). -/
structure File where
  base : Nat
  size : Nat
  name : String
deriving DecidableEq

/-- Structured form of the error values built by `fmt.Errorf` in the
source: each constructor records exactly the data interpolated into
the corresponding message. -/
inductive TokenError where
  | posOutOfRange (pos : Int) (lo hi : Int) (name : String)
  | offsetOutOfRange (offset : Int) (name : String) (size : Nat)
deriving DecidableEq

/-- `token.NoPos`: the zero sentinel position. -/
def NoPos : Int := 0

/-- `inRange(f, pos)`: `token.Pos(f.Base()) <= pos && pos <= token.Pos(f.Base()+f.Size())`. -/
def inRange (f : File) (pos : Int) : Bool :=
  decide ((f.base : Int) ≤ pos) && decide (pos ≤ (f.base : Int) + f.size)

/-- `safetoken.Offset(f, pos)`: returns `(pos - base, nil)` when `inRange`,
accepts `pos == base+size+1` as the EOF offset (workaround for issue 57490),
and otherwise returns `(-1, err)`. -/
def Offset (f : File) (pos : Int) : Int × Option TokenError :=
  if !(inRange f pos) then
    if pos = (f.base : Int) + f.size + 1 then
      ((f.size : Int), none)
    else
      (-1, some (.posOutOfRange pos f.base ((f.base : Int) + f.size) f.name))
  else
    (pos - f.base, none)

/-- `safetoken.Pos(f, offset)`: returns `(base+offset, nil)` when
`0 <= offset <= size`, and `(NoPos, err)` otherwise. -/
def Pos (f : File) (offset : Int) : Int × Option TokenError :=
  if !(decide (0 ≤ offset) && decide (offset ≤ (f.size : Int))) then
    (NoPos, some (.offsetOutOfRange offset f.name f.size))
  else
    ((f.base : Int) + offset, none)

theorem inRange_eq_true (f : File) (pos : Int) :
    inRange f pos = true ↔ ((f.base : Int) ≤ pos ∧ pos ≤ (f.base : Int) + f.size) := by
  simp [inRange]

theorem inRange_eq_false (f : File) (pos : Int) :
    inRange f pos = false ↔ ¬((f.base : Int) ≤ pos ∧ pos ≤ (f.base : Int) + f.size) := by
  simp [inRange]

theorem Offset_of_inRange (f : File) (pos : Int)
    (h : (f.base : Int) ≤ pos ∧ pos ≤ (f.base : Int) + f.size) :
    Offset f pos = (pos - f.base, none) := by
  have h1 : inRange f pos = true := (inRange_eq_true f pos).2 h
  simp [Offset, h1]

theorem Offset_eof (f : File) :
    Offset f ((f.base : Int) + f.size + 1) = ((f.size : Int), none) := by
  have h1 : inRange f ((f.base : Int) + f.size + 1) = false := by
    rw [inRange_eq_false]; omega
  simp [Offset, h1]

theorem Offset_of_out (f : File) (pos : Int)
    (h : pos < (f.base : Int) ∨ (f.base : Int) + f.size + 1 < pos) :
    Offset f pos =
      (-1, some (.posOutOfRange pos f.base ((f.base : Int) + f.size) f.name)) := by
  have h1 : inRange f pos = false := by rw [inRange_eq_false]; omega
  have h2 : pos ≠ (f.base : Int) + f.size + 1 := by omega
  simp [Offset, h1, h2]

theorem Pos_of_range (f : File) (offset : Int)
    (h : 0 ≤ offset ∧ offset ≤ (f.size : Int)) :
    Pos f offset = ((f.base : Int) + offset, none) := by
  have h1 : (decide (0 ≤ offset) && decide (offset ≤ (f.size : Int))) = true := by
    simp [h.1, h.2]
  simp [Pos, h1]

theorem Pos_of_out (f : File) (offset : Int)
    (h : ¬(0 ≤ offset ∧ offset ≤ (f.size : Int))) :
    Pos f offset = (NoPos, some (.offsetOutOfRange offset f.name f.size)) := by
  have h1 : (decide (0 ≤ offset) && decide (offset ≤ (f.size : Int))) = false := by
    simp only [Bool.and_eq_false_iff, decide_eq_false_iff_not]
    omega
  simp [Pos, h1]

end SafeToken

namespace SafeToken

/-- Claim C1: for every file `f` with base `b` and size `s`, `Offset f (b+s+1)`
succeeds and returns `s`, while `Offset f (b+s+2)` fails with an out-of-range
error naming the position and the file's valid interval. -/
theorem offset_eof_tolerance (f : File) :
    Offset f ((f.base : Int) + f.size + 1) = ((f.size : Int), none) ∧
    Offset f ((f.base : Int) + f.size + 2) =
      (-1, some (.posOutOfRange ((f.base : Int) + f.size + 2) f.base
        ((f.base : Int) + f.size) f.name)) := by
  exact ⟨Offset_eof f, Offset_of_out f _ (by omega)⟩

/-- Claim C2: `Offset` succeeds with `pos - base` for every `pos` in
`[base, base+size]`, and for every `pos` outside `[base, base+size+1]` it
fails with an error naming the offending position and the valid interval. -/
theorem offset_range_spec (f : File) (pos : Int) :
    ((f.base : Int) ≤ pos ∧ pos ≤ (f.base : Int) + f.size →
      Offset f pos = (pos - f.base, none)) ∧
    (pos < (f.base : Int) ∨ (f.base : Int) + f.size + 1 < pos →
      Offset f pos =
        (-1, some (.posOutOfRange pos f.base ((f.base : Int) + f.size) f.name))) := by
  exact ⟨fun h => Offset_of_inRange f pos h, fun h => Offset_of_out f pos h⟩

/-- Witness for C2 at `f = ⟨10, 5, "f"⟩`, `pos = 12` (in range) and
`pos = 17` (out of range). -/
theorem offset_range_spec_witness :
    Offset ⟨10, 5, "f"⟩ 12 = (2, none) ∧
    Offset ⟨10, 5, "f"⟩ 17 = (-1, some (.posOutOfRange 17 10 15 "f")) := by
  constructor
  · have h := (offset_range_spec ⟨10, 5, "f"⟩ 12).1 (by decide)
    simpa using h
  · have h := (offset_range_spec ⟨10, 5, "f"⟩ 17).2 (by decide)
    simpa using h

/-- Claim C3: `Pos` succeeds with `base + offset` exactly when
`0 ≤ offset ≤ size`, fails with an out-of-range error otherwise, and in
particular fails at `offset = size + 1` (no EOF tolerance in this direction). -/
theorem pos_range_spec (f : File) (offset : Int) :
    (0 ≤ offset ∧ offset ≤ (f.size : Int) →
      Pos f offset = ((f.base : Int) + offset, none)) ∧
    (¬(0 ≤ offset ∧ offset ≤ (f.size : Int)) →
      Pos f offset = (NoPos, some (.offsetOutOfRange offset f.name f.size))) ∧
    (Pos f ((f.size : Int) + 1)).2 ≠ none := by
  refine ⟨fun h => Pos_of_range f offset h, fun h => Pos_of_out f offset h, ?_⟩
  rw [Pos_of_out f ((f.size : Int) + 1) (by omega)]
  simp

/-- Witness for C3 at `f = ⟨4, 6, "p"⟩`, `offset = 2` (valid) and
`offset = -3` (invalid). -/
theorem pos_range_spec_witness :
    Pos ⟨4, 6, "p"⟩ 2 = (6, none) ∧
    Pos ⟨4, 6, "p"⟩ (-3) = (NoPos, some (.offsetOutOfRange (-3) "p" 6)) := by
  constructor
  · have h := (pos_range_spec ⟨4, 6, "p"⟩ 2).1 (by decide)
    simpa using h
  · have h := (pos_range_spec ⟨4, 6, "p"⟩ (-3)).2.1 (by decide)
    simpa using h

/-- Claim C4: a failing `Offset` call returns the sentinel `-1` paired with
its error, and a failing `Pos` call returns the sentinel `NoPos`; both are
total functions of their inputs (no input panics or aborts). -/
theorem conversions_return_errors (f : File) (pos offset : Int) :
    ((Offset f pos).2.isSome → (Offset f pos).1 = -1) ∧
    ((Pos f offset).2.isSome → (Pos f offset).1 = NoPos) := by
  constructor
  · unfold Offset
    split
    · split
      · simp
      · simp
    · simp
  · unfold Pos
    split
    · simp [NoPos]
    · simp

/-- Witness for C4 at `f = ⟨10, 5, "g"⟩` with failing inputs `pos = 3`
and `offset = -1`. -/
theorem conversions_return_errors_witness :
    (Offset ⟨10, 5, "g"⟩ 3).1 = -1 ∧ (Pos ⟨10, 5, "g"⟩ (-1)).1 = NoPos := by
  constructor
  · exact (conversions_return_errors ⟨10, 5, "g"⟩ 3 (-1)).1 (by decide)
  · exact (conversions_return_errors ⟨10, 5, "g"⟩ 3 (-1)).2 (by decide)

/-- Claim C9: `Offset` after `Pos` is the identity on `[0, size]`; `Pos`
after `Offset` is the identity on `[base, base+size]`, but the tolerated
`pos = base+size+1` maps back to `base+size` instead. -/
theorem offset_pos_roundtrip (f : File) (o pos : Int) :
    (0 ≤ o ∧ o ≤ (f.size : Int) → Offset f (Pos f o).1 = (o, none)) ∧
    ((f.base : Int) ≤ pos ∧ pos ≤ (f.base : Int) + f.size →
      Pos f (Offset f pos).1 = (pos, none)) ∧
    Pos f (Offset f ((f.base : Int) + f.size + 1)).1 =
      ((f.base : Int) + f.size, none) := by
  refine ⟨?_, ?_, ?_⟩
  · intro h
    rw [Pos_of_range f o h]
    show Offset f ((f.base : Int) + o) = (o, none)
    rw [Offset_of_inRange f _ ⟨by omega, by omega⟩]
    simp only [Prod.mk.injEq]
    exact ⟨by omega, trivial⟩
  · intro h
    rw [Offset_of_inRange f pos h]
    show Pos f (pos - f.base) = (pos, none)
    rw [Pos_of_range f _ ⟨by omega, by omega⟩]
    simp only [Prod.mk.injEq]
    exact ⟨by omega, trivial⟩
  · rw [Offset_eof f]
    show Pos f ((f.size : Int)) = ((f.base : Int) + f.size, none)
    rw [Pos_of_range f _ ⟨by omega, by omega⟩]

/-- Witness for C9 at `f = ⟨3, 4, "r"⟩` with `o = 2` and `pos = 5`. -/
theorem offset_pos_roundtrip_witness :
    Offset ⟨3, 4, "r"⟩ (Pos ⟨3, 4, "r"⟩ 2).1 = (2, none) ∧
    Pos ⟨3, 4, "r"⟩ (Offset ⟨3, 4, "r"⟩ 5).1 = (5, none) := by
  constructor
  · exact (offset_pos_roundtrip ⟨3, 4, "r"⟩ 2 5).1 (by decide)
  · exact (offset_pos_roundtrip ⟨3, 4, "r"⟩ 2 5).2.1 (by decide)

/-- Claim C10: whenever `Offset` succeeds its result lies in `[0, size]`
(the tolerated one-past-EOF input yields exactly `size`), and whenever it
fails it returns `-1` together with a non-`none` error. -/
theorem offset_result_in_range (f : File) (pos : Int) :
    ((Offset f pos).2 = none →
      0 ≤ (Offset f pos).1 ∧ (Offset f pos).1 ≤ (f.size : Int)) ∧
    ((Offset f pos).2 ≠ none → (Offset f pos).1 = -1) ∧
    (Offset f ((f.base : Int) + f.size + 1)).1 = (f.size : Int) := by
  have h3 : (Offset f ((f.base : Int) + f.size + 1)).1 = (f.size : Int) := by
    rw [Offset_eof]
  refine ⟨?_, ?_, h3⟩
  · intro hnone
    by_cases h : (f.base : Int) ≤ pos ∧ pos ≤ (f.base : Int) + f.size
    · rw [Offset_of_inRange f pos h]
      dsimp only
      omega
    · by_cases he : pos = (f.base : Int) + f.size + 1
      · subst he
        rw [Offset_eof]
        dsimp only
        omega
      · rw [Offset_of_out f pos (by omega)] at hnone
        simp at hnone
  · intro hne
    by_cases h : (f.base : Int) ≤ pos ∧ pos ≤ (f.base : Int) + f.size
    · rw [Offset_of_inRange f pos h] at hne
      simp at hne
    · by_cases he : pos = (f.base : Int) + f.size + 1
      · subst he
        rw [Offset_eof] at hne
        simp at hne
      · rw [Offset_of_out f pos (by omega)]

/-- Witness for C10 at `f = ⟨7, 3, "w"⟩` with succeeding input `pos = 8`
and failing input `pos = 20`. -/
theorem offset_result_in_range_witness :
    (0 ≤ (Offset ⟨7, 3, "w"⟩ 8).1 ∧ (Offset ⟨7, 3, "w"⟩ 8).1 ≤ (3 : Int)) ∧
    (Offset ⟨7, 3, "w"⟩ 20).1 = -1 := by
  constructor
  · exact (offset_result_in_range ⟨7, 3, "w"⟩ 8).1 (by decide)
  · exact (offset_result_in_range ⟨7, 3, "w"⟩ 20).2.1 (by decide)

end SafeToken

namespace Mapper

/-- UTF-8 byte length of one character (1 to 4 bytes by code point). -/
def utf8Len (c : Char) : Nat :=
  if c.toNat < 0x80 then 1
  else if c.toNat < 0x800 then 2
  else if c.toNat < 0x10000 then 3
  else 4

/-- UTF-16 code-unit length of one character: 1 unit inside the Basic
Multilingual Plane, 2 units (a surrogate pair) outside it. -/
def utf16Len (c : Char) : Nat :=
  if c.toNat < 0x10000 then 1 else 2

/-- Total UTF-8 byte length of a character sequence. -/
def utf8Length (l : List Char) : Nat := (l.map utf8Len).sum

/-- Total UTF-16 code-unit length of a character sequence. -/
def utf16Length (l : List Char) : Nat := (l.map utf16Len).sum

/-- Modelled from the spec: the `LineTable` decomposition of content into
lines (the Mapper implementation is outside the provided sources).  Content
is split at every line-terminator byte; the line following the last
terminator is always present, even when empty. -/
def lineList : List Char → List (List Char)
  | [] => [[]]
  | c :: rest =>
    if c = '\n' then [] :: lineList rest
    else
      match lineList rest with
      | [] => [[c]]
      | l :: ls => (c :: l) :: ls

/-- Modelled from the spec: the `LineTable` entry for line `i` — the byte
offset of the start of line `i`, i.e. the bytes of all earlier lines plus
one terminator byte per earlier line. -/
def lineStart (content : List Char) (i : Nat) : Nat :=
  (((lineList content).take i).map (fun l => utf8Length l + 1)).sum

/-- Modelled from the spec: `Utf16Translator.byteColumnForUtf16` — walk the
line's characters accumulating UTF-16 units; a column on a character
boundary yields that character's starting byte offset; a column on the
second unit of a surrogate pair is rounded down to the character's start;
a column beyond the line's UTF-16 length fails. -/
def byteColumnForUtf16 : List Char → Nat → Option Nat
  | _, 0 => some 0
  | [], _ + 1 => none
  | c :: rest, col + 1 =>
    if utf16Len c ≤ col + 1 then
      (byteColumnForUtf16 rest (col + 1 - utf16Len c)).map (fun b => utf8Len c + b)
    else
      some 0

/-- Modelled from the spec: `Utf16Translator.utf16ColumnForByteColumn` —
accumulate UTF-16 units while consuming bytes; fails if the byte column
does not land on a character boundary or exceeds the line length. -/
def utf16ColumnForByteColumn : List Char → Nat → Option Nat
  | _, 0 => some 0
  | [], _ + 1 => none
  | c :: rest, bc + 1 =>
    if utf8Len c ≤ bc + 1 then
      (utf16ColumnForByteColumn rest (bc + 1 - utf8Len c)).map (fun u => utf16Len c + u)
    else
      none

/-- Modelled from the spec: `lineOfOffset` — the line whose start is the
greatest line-start offset `≤` the query, clamped to the valid line range. -/
def lineOfOffset : List (List Char) → Nat → Nat
  | [], _ => 0
  | [_], _ => 0
  | l :: l2 :: ls, o =>
    if o ≤ utf8Length l then 0
    else 1 + lineOfOffset (l2 :: ls) (o - (utf8Length l + 1))

/-- Modelled from the spec: `Mapper.positionToOffset` — look up the line via
the line table (fails when the line is out of range), resolve the UTF-16
column within that line's bytes, and return `lineStart + byteColumn`. -/
def positionToOffset (content : List Char) (line col : Nat) : Option Nat :=
  match (lineList content).get? line with
  | none => none
  | some lbytes =>
    (byteColumnForUtf16 lbytes col).map (fun b => lineStart content line + b)

/-- Modelled from the spec: `Mapper.offsetToPosition` — validate
`0 ≤ offset ≤ size`, find the owning line via `lineOfOffset`, take the
byte column as `offset - lineStart`, and resolve it to a UTF-16 column. -/
def offsetToPosition (content : List Char) (offset : Nat) : Option (Nat × Nat) :=
  if offset ≤ utf8Length content then
    match (lineList content).get? (lineOfOffset (lineList content) offset) with
    | none => none
    | some lbytes =>
      (utf16ColumnForByteColumn lbytes
          (offset - lineStart content (lineOfOffset (lineList content) offset))).map
        (fun u => (lineOfOffset (lineList content) offset, u))
  else none

end Mapper

namespace Mapper

/-- Claim C5: on the single line `"a𐐀b"` (U+10400 is 4 UTF-8 bytes and a
UTF-16 surrogate pair), UTF-16 columns 0,1,2,3,4 map to byte offsets
0,1,1,5,6 — column 2, inside the surrogate pair, rounds down to the
character's start — and column 5 fails. -/
theorem surrogate_mapping :
    positionToOffset ['a', Char.ofNat 0x10400, 'b'] 0 0 = some 0 ∧
    positionToOffset ['a', Char.ofNat 0x10400, 'b'] 0 1 = some 1 ∧
    positionToOffset ['a', Char.ofNat 0x10400, 'b'] 0 2 = some 1 ∧
    positionToOffset ['a', Char.ofNat 0x10400, 'b'] 0 3 = some 5 ∧
    positionToOffset ['a', Char.ofNat 0x10400, 'b'] 0 4 = some 6 ∧
    positionToOffset ['a', Char.ofNat 0x10400, 'b'] 0 5 = none := by
  refine ⟨?_, ?_, ?_, ?_, ?_, ?_⟩ <;> decide

/-- Claim C6: for content `"aaa\nbbb\n"`, positions (0,3),(1,0),(1,3),(2,0)
map to offsets 3,4,7,8 and (0,4),(1,4),(2,1) fail; for `"aaa\nbbb\n\n"`,
(2,0) still maps to 8. -/
theorem line_boundary_mapping :
    positionToOffset ['a', 'a', 'a', '\n', 'b', 'b', 'b', '\n'] 0 3 = some 3 ∧
    positionToOffset ['a', 'a', 'a', '\n', 'b', 'b', 'b', '\n'] 0 4 = none ∧
    positionToOffset ['a', 'a', 'a', '\n', 'b', 'b', 'b', '\n'] 1 0 = some 4 ∧
    positionToOffset ['a', 'a', 'a', '\n', 'b', 'b', 'b', '\n'] 1 3 = some 7 ∧
    positionToOffset ['a', 'a', 'a', '\n', 'b', 'b', 'b', '\n'] 1 4 = none ∧
    positionToOffset ['a', 'a', 'a', '\n', 'b', 'b', 'b', '\n'] 2 0 = some 8 ∧
    positionToOffset ['a', 'a', 'a', '\n', 'b', 'b', 'b', '\n'] 2 1 = none ∧
    positionToOffset ['a', 'a', 'a', '\n', 'b', 'b', 'b', '\n', '\n'] 2 0 = some 8 := by
  refine ⟨?_, ?_, ?_, ?_, ?_, ?_, ?_, ?_⟩ <;> decide

end Mapper

namespace Mapper

theorem utf8Length_nil : utf8Length [] = 0 := rfl

theorem utf16Length_nil : utf16Length [] = 0 := rfl

theorem utf8Length_cons (c : Char) (l : List Char) :
    utf8Length (c :: l) = utf8Len c + utf8Length l := by
  simp [utf8Length]

theorem utf16Length_cons (c : Char) (l : List Char) :
    utf16Length (c :: l) = utf16Len c + utf16Length l := by
  simp [utf16Length]

theorem utf8Length_append (a b : List Char) :
    utf8Length (a ++ b) = utf8Length a + utf8Length b := by
  simp [utf8Length]

theorem utf8Len_newline : utf8Len '\n' = 1 := by decide

theorem one_le_utf16Len (c : Char) : 1 ≤ utf16Len c := by
  unfold utf16Len; split <;> omega

theorem one_le_utf8Len (c : Char) : 1 ≤ utf8Len c := by
  unfold utf8Len; split <;> [omega; split <;> [omega; split <;> omega]]

theorem byteColumnForUtf16_consume (c : Char) (rest : List Char) (m : Nat) :
    byteColumnForUtf16 (c :: rest) (utf16Len c + m) =
      (byteColumnForUtf16 rest m).map (fun b => utf8Len c + b) := by
  have h1 : 1 ≤ utf16Len c := one_le_utf16Len c
  obtain ⟨j, hj⟩ : ∃ j, utf16Len c + m = j + 1 := ⟨utf16Len c + m - 1, by omega⟩
  rw [hj]
  simp only [byteColumnForUtf16]
  rw [if_pos (by omega : utf16Len c ≤ j + 1)]
  have hm : j + 1 - utf16Len c = m := by omega
  rw [hm]

theorem utf16ColumnForByteColumn_consume (c : Char) (rest : List Char) (m : Nat) :
    utf16ColumnForByteColumn (c :: rest) (utf8Len c + m) =
      (utf16ColumnForByteColumn rest m).map (fun u => utf16Len c + u) := by
  have h1 : 1 ≤ utf8Len c := one_le_utf8Len c
  obtain ⟨j, hj⟩ : ∃ j, utf8Len c + m = j + 1 := ⟨utf8Len c + m - 1, by omega⟩
  rw [hj]
  simp only [utf16ColumnForByteColumn]
  rw [if_pos (by omega : utf8Len c ≤ j + 1)]
  have hm : j + 1 - utf8Len c = m := by omega
  rw [hm]

theorem byteColumnForUtf16_take (l : List Char) (k : Nat) :
    byteColumnForUtf16 l (utf16Length (l.take k)) =
      some (utf8Length (l.take k)) := by
  induction l generalizing k with
  | nil => simp [byteColumnForUtf16, utf16Length_nil, utf8Length_nil]
  | cons c rest ih =>
    cases k with
    | zero => rfl
    | succ j =>
      rw [List.take_succ_cons, utf16Length_cons, byteColumnForUtf16_consume, ih]
      simp [utf8Length_cons]

theorem utf16ColumnForByteColumn_take (l : List Char) (k : Nat) :
    utf16ColumnForByteColumn l (utf8Length (l.take k)) =
      some (utf16Length (l.take k)) := by
  induction l generalizing k with
  | nil => simp [utf16ColumnForByteColumn, utf16Length_nil, utf8Length_nil]
  | cons c rest ih =>
    cases k with
    | zero => rfl
    | succ j =>
      rw [List.take_succ_cons, utf8Length_cons, utf16ColumnForByteColumn_consume, ih]
      simp [utf16Length_cons]

end Mapper

namespace Mapper

/-- Claim C8: for every line and every byte column that lands on a
character boundary within the line, `utf16ColumnForByteColumn` followed by
`byteColumnForUtf16` returns the original byte column. -/
theorem column_roundtrip (lbytes : List Char) (k : Nat) :
    (utf16ColumnForByteColumn lbytes (utf8Length (lbytes.take k))).bind
      (byteColumnForUtf16 lbytes) = some (utf8Length (lbytes.take k)) := by
  rw [utf16ColumnForByteColumn_take lbytes k]
  show byteColumnForUtf16 lbytes (utf16Length (lbytes.take k)) =
    some (utf8Length (lbytes.take k))
  exact byteColumnForUtf16_take lbytes k

end Mapper

namespace Mapper

theorem lineList_ne_nil (content : List Char) : lineList content ≠ [] := by
  induction content with
  | nil => simp [lineList]
  | cons c rest ih =>
    by_cases hc : c = '\n'
    · simp [lineList, hc]
    · cases h : lineList rest with
      | nil => simp [lineList, hc, h]
      | cons l ls => simp [lineList, hc, h]

theorem lineList_no_newline (l : List Char) (h : '\n' ∉ l) : lineList l = [l] := by
  induction l with
  | nil => rfl
  | cons c rest ih =>
    have hc : ¬(c = '\n') := fun he => h (by simp [he])
    have hr : '\n' ∉ rest := fun hm => h (List.mem_cons_of_mem c hm)
    simp [lineList, hc, ih hr]

theorem lineList_append (l0 rest : List Char) (h : '\n' ∉ l0) :
    lineList (l0 ++ '\n' :: rest) = l0 :: lineList rest := by
  induction l0 with
  | nil => simp [lineList]
  | cons c l0' ih =>
    have hc : ¬(c = '\n') := fun he => h (by simp [he])
    have h' : '\n' ∉ l0' := fun hm => h (List.mem_cons_of_mem c hm)
    simp [lineList, hc, ih h']

theorem lineStart_zero (content : List Char) : lineStart content 0 = 0 := rfl

theorem lineStart_succ (l0 rest : List Char) (h : '\n' ∉ l0) (i : Nat) :
    lineStart (l0 ++ '\n' :: rest) (i + 1) =
      utf8Length l0 + 1 + lineStart rest i := by
  unfold lineStart
  rw [lineList_append l0 rest h, List.take_succ_cons, List.map_cons, List.sum_cons]

theorem utf8Length_take_le (l : List Char) (k : Nat) :
    utf8Length (l.take k) ≤ utf8Length l := by
  conv_rhs => rw [← List.take_append_drop k l]
  rw [utf8Length_append]
  omega

theorem exists_newline_split (content : List Char) (h : '\n' ∈ content) :
    ∃ l0 rest, content = l0 ++ '\n' :: rest ∧ '\n' ∉ l0 := by
  induction content with
  | nil => simp at h
  | cons c cs ih =>
    by_cases hc : c = '\n'
    · exact ⟨[], cs, by rw [hc]; rfl, by simp⟩
    · have h' : '\n' ∈ cs := by
        rcases List.mem_cons.mp h with h1 | h1
        · exact absurd h1.symm hc
        · exact h1
      obtain ⟨l0, rest, he, hn⟩ := ih h'
      refine ⟨c :: l0, rest, by rw [he]; rfl, ?_⟩
      intro hm
      rcases List.mem_cons.mp hm with h1 | h1
      · exact hc h1.symm
      · exact hn h1

theorem positionToOffset_head (content l0 : List Char) (ls : List (List Char))
    (h : lineList content = l0 :: ls) (col : Nat) :
    positionToOffset content 0 col = byteColumnForUtf16 l0 col := by
  unfold positionToOffset
  rw [h]
  cases hb : byteColumnForUtf16 l0 col <;>
    simp [hb, lineStart_zero]

theorem positionToOffset_succ (l0 rest : List Char) (h : '\n' ∉ l0) (n col : Nat) :
    positionToOffset (l0 ++ '\n' :: rest) (n + 1) col =
      (positionToOffset rest n col).map (fun b => utf8Length l0 + 1 + b) := by
  unfold positionToOffset
  rw [lineList_append l0 rest h]
  simp only [List.get?_cons_succ]
  cases hg : (lineList rest).get? n with
  | none => simp
  | some lbytes =>
    cases hb : byteColumnForUtf16 lbytes col with
    | none => simp [hb]
    | some b =>
      simp only [hb, Option.map_some', lineStart_succ l0 rest h n]
      congr 1
      omega

theorem offsetToPosition_single (content : List Char) (h : '\n' ∉ content) (o : Nat)
    (ho : o ≤ utf8Length content) :
    offsetToPosition content o =
      (utf16ColumnForByteColumn content o).map (fun u => (0, u)) := by
  unfold offsetToPosition
  rw [if_pos ho, lineList_no_newline content h]
  have hl : lineOfOffset [content] o = 0 := rfl
  rw [hl]
  cases hb : utf16ColumnForByteColumn content o <;>
    simp [hb, lineStart_zero]

theorem offsetToPosition_first (l0 rest : List Char) (h : '\n' ∉ l0) (o : Nat)
    (ho : o ≤ utf8Length l0) :
    offsetToPosition (l0 ++ '\n' :: rest) o =
      (utf16ColumnForByteColumn l0 o).map (fun u => (0, u)) := by
  unfold offsetToPosition
  have htot : o ≤ utf8Length (l0 ++ '\n' :: rest) := by
    rw [utf8Length_append, utf8Length_cons]
    omega
  rw [if_pos htot, lineList_append l0 rest h]
  obtain ⟨r, rs, hr⟩ := List.exists_cons_of_ne_nil (lineList_ne_nil rest)
  rw [hr]
  have hl : lineOfOffset (l0 :: r :: rs) o = 0 := by
    simp only [lineOfOffset]
    rw [if_pos ho]
  rw [hl]
  cases hb : utf16ColumnForByteColumn l0 o <;>
    simp [hb, lineStart_zero]

end Mapper

namespace Mapper

theorem offsetToPosition_shift (l0 rest : List Char) (h : '\n' ∉ l0) (o' : Nat) :
    offsetToPosition (l0 ++ '\n' :: rest) (utf8Length l0 + 1 + o') =
      (offsetToPosition rest o').map (fun p => (p.1 + 1, p.2)) := by
  have htot : utf8Length (l0 ++ '\n' :: rest) =
      utf8Length l0 + 1 + utf8Length rest := by
    rw [utf8Length_append, utf8Length_cons, utf8Len_newline]
    omega
  unfold offsetToPosition
  by_cases hcase : o' ≤ utf8Length rest
  · rw [if_pos (by omega), if_pos hcase, lineList_append l0 rest h]
    obtain ⟨r, rs, hr⟩ := List.exists_cons_of_ne_nil (lineList_ne_nil rest)
    rw [hr]
    have hl : lineOfOffset (l0 :: r :: rs) (utf8Length l0 + 1 + o') =
        lineOfOffset (r :: rs) o' + 1 := by
      simp only [lineOfOffset]
      rw [if_neg (by omega)]
      have harg : utf8Length l0 + 1 + o' - (utf8Length l0 + 1) = o' := by omega
      rw [harg, Nat.add_comm]
    rw [hl]
    simp only [List.get?_cons_succ]
    cases hg : (r :: rs).get? (lineOfOffset (r :: rs) o') with
    | none => simp
    | some lbytes =>
      rw [lineStart_succ l0 rest h]
      have hcol : utf8Length l0 + 1 + o' -
          (utf8Length l0 + 1 + lineStart rest (lineOfOffset (r :: rs) o')) =
          o' - lineStart rest (lineOfOffset (r :: rs) o') := by omega
      rw [hcol]
      cases hb : utf16ColumnForByteColumn lbytes
          (o' - lineStart rest (lineOfOffset (r :: rs) o')) with
      | none => simp [hb]
      | some u => simp [hb]
  · rw [if_neg (by omega), if_neg hcase]
    simp

theorem roundtrip_aux (content : List Char) (k : Nat) :
    (offsetToPosition content (utf8Length (content.take k))).bind
      (fun p => positionToOffset content p.1 p.2) =
      some (utf8Length (content.take k)) := by
  by_cases hmem : '\n' ∈ content
  · obtain ⟨l0, rest, hco, hnl⟩ := exists_newline_split content hmem
    subst hco
    by_cases hk : k ≤ l0.length
    · rw [List.take_append_of_le_length hk]
      have ho : utf8Length (l0.take k) ≤ utf8Length l0 := utf8Length_take_le l0 k
      rw [offsetToPosition_first l0 rest hnl _ ho, utf16ColumnForByteColumn_take l0 k]
      simp only [Option.map_some', Option.some_bind]
      rw [positionToOffset_head (l0 ++ '\n' :: rest) l0 (lineList rest)
        (lineList_append l0 rest hnl)]
      exact byteColumnForUtf16_take l0 k
    · push_neg at hk
      obtain ⟨m, hm⟩ : ∃ m, k - l0.length = m + 1 := ⟨k - l0.length - 1, by omega⟩
      have htake : (l0 ++ '\n' :: rest).take k = l0 ++ '\n' :: rest.take m := by
        rw [List.take_append_eq_append_take, List.take_of_length_le (by omega), hm,
          List.take_succ_cons]
      rw [htake]
      have hlen : utf8Length (l0 ++ '\n' :: rest.take m) =
          utf8Length l0 + 1 + utf8Length (rest.take m) := by
        rw [utf8Length_append, utf8Length_cons, utf8Len_newline]
        omega
      rw [hlen, offsetToPosition_shift l0 rest hnl]
      have IH := roundtrip_aux rest m
      cases hop : offsetToPosition rest (utf8Length (rest.take m)) with
      | none => rw [hop] at IH; simp at IH
      | some p =>
        rw [hop] at IH
        simp only [Option.some_bind] at IH
        simp only [Option.map_some', Option.some_bind]
        rw [positionToOffset_succ l0 rest hnl p.1 p.2, IH]
        rfl
  · have ho : utf8Length (content.take k) ≤ utf8Length content :=
      utf8Length_take_le content k
    rw [offsetToPosition_single content hmem _ ho,
      utf16ColumnForByteColumn_take content k]
    simp only [Option.map_some', Option.some_bind]
    rw [positionToOffset_head content content [] (lineList_no_newline content hmem)]
    exact byteColumnForUtf16_take content k
termination_by content.length
decreasing_by
  rw [hco, List.length_append, List.length_cons]
  omega

end Mapper

namespace Mapper

/-- Claim C7: for every content and every byte offset on a character
boundary (the byte length of a prefix of the content), converting the
offset to a protocol position and back yields the original offset. -/
theorem position_offset_roundtrip (content : List Char) (k : Nat) :
    (offsetToPosition content (utf8Length (content.take k))).bind
      (fun p => positionToOffset content p.1 p.2) =
      some (utf8Length (content.take k)) :=
  roundtrip_aux content k

end Mapper
